import Mathlib

/-!
Shallow embedding of the DRBG benchmark core (`src/drbg.rs`, `src/main.rs`).

Bytes are modelled as `Nat` (values `< 256` in any state the program reaches;
the byte-level operations used below only ever look at the low 8 bits).
Cryptographic primitives (BLAKE3, the ChaCha20 stream, the AES-256 block
cipher) are external library calls; they are modelled as abstract function
parameters collected in `Prims`, since every claim under verification concerns
the structure around them (lengths, counter arithmetic, state carry-over,
determinism), not the primitive's concrete values.
-/

namespace DRBG

/-- Mirror of `struct BitString { bits: usize, bytes: Vec<u8> }`. -/
structure BitString where
  bits : Nat
  bytes : List Nat
deriving Repr, DecidableEq

/-- Mirror of `struct BitTally { zeros: u64, ones: u64 }`. -/
structure BitTally where
  zeros : Nat
  ones : Nat
deriving Repr, DecidableEq

/-- Mirror of `BitString::storage_bytes`. -/
def BitString.storage_bytes (s : BitString) : Nat :=
  s.bytes.length

/-- Model of `u8::count_ones`: the number of set bits among the 8 bit
positions of a byte. -/
def popCount8 (b : Nat) : Nat :=
  (List.range 8).countP (fun i => (b >>> i) &&& 1 == 1)

/-- Mirror of `BitString::count_bits`.  The Rust code indexes
`self.bytes[full_bytes]` when `remainder > 0`; an out-of-bounds index there is
a panic, modelled as `none`.  The `u64` subtraction `bits - ones` is modelled
with `Nat` subtraction (we prove `ones ≤ bits` separately, so it never
truncates on inputs satisfying the buffer-length precondition). -/
def BitString.count_bits (s : BitString) : Option BitTally :=
  let full_bytes := s.bits / 8
  let remainder := s.bits % 8
  let onesFull := ((s.bytes.take full_bytes).map popCount8).sum
  if remainder > 0 then
    match s.bytes.get? full_bytes with
    | none => none
    | some byte =>
        let ones := onesFull +
          (List.range remainder).countP (fun i => (byte >>> (7 - i)) &&& 1 == 1)
        some ⟨s.bits - ones, ones⟩
  else
    some ⟨s.bits - onesFull, onesFull⟩

/-- Big-endian 8-byte encoding, mirror of `u64::to_be_bytes` (the `usize`
arguments are cast to `u64` first in the source; values in this development
stay below `2^64`). -/
def be_bytes64 (n : Nat) : List Nat :=
  (List.range 8).map (fun i => (n >>> (8 * (7 - i))) &&& 255)

/-- Big-endian decoding of a byte list, mirror of `u128::from_be_bytes` on a
16-byte slice. -/
def from_be_bytes (l : List Nat) : Nat :=
  l.foldl (fun acc b => acc * 256 + b) 0

/-- Abstract cryptographic primitives used by `drbg.rs`.  Each is an arbitrary
function; every theorem below holds for all instantiations, which is exactly
the sense in which the claims are structural.
* `xof input i` — byte `i` of the unbounded BLAKE3 XOF stream over `input`
  (used by `derive_material` via `Hasher::new()`).
* `keyedXof key input i` — byte `i` of the keyed BLAKE3 XOF stream
  (`Hasher::new_keyed(key)` fed `input`).
* `chachaStream seed32 i` — byte `i` of the ChaCha20 RNG byte stream for a
  32-byte seed (`ChaCha20Rng::from_seed`).
* `aesEnc key ctr` — the 16-byte AES-256 encryption of the big-endian
  counter block with value `ctr` under `key`. -/
structure Prims where
  xof : List Nat → Nat → Nat
  keyedXof : List Nat → List Nat → Nat → Nat
  chachaStream : List Nat → Nat → Nat
  aesEnc : List Nat → Nat → List Nat

/-- Trivial instantiation of the primitives, used to evaluate the model on
concrete inputs. -/
def trivPrims : Prims :=
  ⟨fun _ _ => 0, fun _ _ _ => 0, fun _ _ => 0, fun _ _ => List.replicate 16 0⟩

/-- UTF-8 bytes of the domain label `"chacha20-drbg"`. -/
def chacha20Label : List Nat :=
  [99, 104, 97, 99, 104, 97, 50, 48, 45, 100, 114, 98, 103]

/-- UTF-8 bytes of the domain label `"aes-ctr-drbg"`. -/
def aesCtrLabel : List Nat :=
  [97, 101, 115, 45, 99, 116, 114, 45, 100, 114, 98, 103]

/-- UTF-8 bytes of the domain label `"blake3-xof-drbg"`. -/
def blake3XofLabel : List Nat :=
  [98, 108, 97, 107, 101, 51, 45, 120, 111, 102, 45, 100, 114, 98, 103]

/-- Mirror of `derive_material`: hash `context || be64(length) || seed` with
the BLAKE3 XOF and read exactly `length` bytes.  (`read_exact` cannot fall
short on an unbounded XOF stream, so the model is total.) -/
def derive_material (P : Prims) (seed context : List Nat) (length : Nat) :
    List Nat :=
  (List.range length).map (P.xof (context ++ be_bytes64 length ++ seed))

/-- Mirror of `derive_seed`: the 32-byte convenience wrapper. -/
def derive_seed (P : Prims) (seed context : List Nat) : List Nat :=
  derive_material P seed context 32

/-- Mirror of `struct ChaCha20Drbg { rng: ChaCha20Rng }`.  The RNG is its
deterministic output byte stream plus the position already consumed. -/
structure ChaCha20Drbg where
  stream : Nat → Nat
  pos : Nat

/-- Mirror of `ChaCha20Drbg::new`. -/
def ChaCha20Drbg.new (P : Prims) (seed : List Nat) : ChaCha20Drbg :=
  ⟨P.chachaStream (derive_seed P seed chacha20Label), 0⟩

/-- Mirror of `ChaCha20Drbg::reseed` — the whole RNG is replaced. -/
def ChaCha20Drbg.reseed (P : Prims) (_st : ChaCha20Drbg) (seed : List Nat) :
    ChaCha20Drbg :=
  ⟨P.chachaStream (derive_seed P seed chacha20Label), 0⟩

/-- Mirror of `ChaCha20Drbg::generate_bits`: fill `ceil(bits/8)` bytes from
the RNG stream. -/
def ChaCha20Drbg.generate_bits (st : ChaCha20Drbg) (bits : Nat) :
    BitString × ChaCha20Drbg :=
  let byte_len := (bits + 7) / 8
  (⟨bits, (List.range byte_len).map (fun i => st.stream (st.pos + i))⟩,
   ⟨st.stream, st.pos + byte_len⟩)

/-- Mirror of `AES_BLOCK_BYTES`. -/
def AES_BLOCK_BYTES : Nat := 16

/-- Mirror of `struct AesCtrDrbg { key, counter: u128 }`. -/
structure AesCtrDrbg where
  key : List Nat
  counter : Nat

/-- Mirror of `AesCtrDrbg::new`: 48 bytes of derived material, first 32 the
key, last 16 (big-endian) the initial counter. -/
def AesCtrDrbg.new (P : Prims) (seed : List Nat) : AesCtrDrbg :=
  let material := derive_material P seed aesCtrLabel 48
  ⟨material.take 32, from_be_bytes (material.drop 32)⟩

/-- Mirror of `AesCtrDrbg::reseed` — both fields are overwritten. -/
def AesCtrDrbg.reseed (P : Prims) (_st : AesCtrDrbg) (seed : List Nat) :
    AesCtrDrbg :=
  let material := derive_material P seed aesCtrLabel 48
  ⟨material.take 32, from_be_bytes (material.drop 32)⟩

/-- Number of counter blocks one `generate_bits(bits)` call consumes:
`blocks_used = ceil(ceil(bits/8)/16)`. -/
def aesBlocksUsed (bits : Nat) : Nat :=
  ((bits + 7) / 8 + AES_BLOCK_BYTES - 1) / AES_BLOCK_BYTES

/-- Byte `j` of the `Ctr128BE<Aes256>` keystream started at counter value
`ctr`: block `j / 16` encrypts counter `(ctr + j/16) mod 2^128`
(the mode's counter wraps at 128 bits), byte `j % 16` of that block. -/
def aesKeystream (P : Prims) (key : List Nat) (ctr j : Nat) : Nat :=
  (P.aesEnc key ((ctr + j / 16) % 2 ^ 128)).getD (j % 16) 0

/-- Mirror of `AesCtrDrbg::generate_bits`: apply the keystream to a zero
buffer of `ceil(bits/8)` bytes, then advance the counter by `blocks_used`
with `u128::wrapping_add`. -/
def AesCtrDrbg.generate_bits (P : Prims) (st : AesCtrDrbg) (bits : Nat) :
    BitString × AesCtrDrbg :=
  let byte_len := (bits + 7) / 8
  (⟨bits, (List.range byte_len).map (aesKeystream P st.key st.counter)⟩,
   ⟨st.key, (st.counter + aesBlocksUsed bits) % 2 ^ 128⟩)

/-- Mirror of `struct Blake3XofDrbg { key: [u8; 32], counter: u64 }`. -/
structure Blake3XofDrbg where
  key : List Nat
  counter : Nat
deriving Repr, DecidableEq

/-- Mirror of `Blake3XofDrbg::new`: derived key, counter 0. -/
def Blake3XofDrbg.new (P : Prims) (seed : List Nat) : Blake3XofDrbg :=
  ⟨derive_seed P seed blake3XofLabel, 0⟩

/-- Mirror of `Blake3XofDrbg::reseed`: recompute the key, reset the counter. -/
def Blake3XofDrbg.reseed (P : Prims) (_st : Blake3XofDrbg) (seed : List Nat) :
    Blake3XofDrbg :=
  ⟨derive_seed P seed blake3XofLabel, 0⟩

/-- Mirror of `Blake3XofDrbg::generate_bits`: keyed XOF over the big-endian
counter bytes, read `ceil(bits/8)` bytes, `u64::wrapping_add(1)` the
counter. -/
def Blake3XofDrbg.generate_bits (P : Prims) (st : Blake3XofDrbg) (bits : Nat) :
    BitString × Blake3XofDrbg :=
  let byte_len := (bits + 7) / 8
  (⟨bits, (List.range byte_len).map (P.keyedXof st.key (be_bytes64 st.counter))⟩,
   ⟨st.key, (st.counter + 1) % 2 ^ 64⟩)

/-- Run a sequence of `generate_bits` calls on a ChaCha20 instance, collecting
the outputs. -/
def ChaCha20Drbg.generateAll (st : ChaCha20Drbg) : List Nat → List BitString
  | [] => []
  | b :: rest =>
      let r := st.generate_bits b
      r.1 :: r.2.generateAll rest

/-- Run a sequence of `generate_bits` calls on an AES-CTR instance, collecting
the outputs. -/
def AesCtrDrbg.generateAll (P : Prims) (st : AesCtrDrbg) :
    List Nat → List BitString
  | [] => []
  | b :: rest =>
      let r := st.generate_bits P b
      r.1 :: r.2.generateAll P rest

/-- Run a sequence of `generate_bits` calls on a BLAKE3-XOF instance,
collecting the outputs. -/
def Blake3XofDrbg.generateAll (P : Prims) (st : Blake3XofDrbg) :
    List Nat → List BitString
  | [] => []
  | b :: rest =>
      let r := st.generate_bits P b
      r.1 :: r.2.generateAll P rest

/-- Logical bit `i` of a byte buffer, most-significant-bit first within each
byte: bit `i` lives in byte `i / 8` at position `7 - i % 8` (missing bytes
read as 0; never reached under the buffer-length precondition). -/
def bitTestL (L : List Nat) (i : Nat) : Bool :=
  ((L.getD (i / 8) 0) >>> (7 - i % 8)) &&& 1 == 1

/-- The number of set bits among the first `bits` logical bits of a Bit
String, stated per-bit; the specification form of the ones tally. -/
def onesSpec (s : BitString) : Nat :=
  (List.range s.bits).countP (bitTestL s.bytes)

/-- The set of 128-bit counter values a CTR keystream of `blocks` blocks
started at counter `ctr` encrypts (each block's counter wraps mod `2^128`). -/
def consumedBlocks (ctr blocks : Nat) : Finset Nat :=
  (Finset.range blocks).image (fun i => (ctr + i) % 2 ^ 128)

/-- Mirror of `fn mean` in `main.rs`: left-fold accumulating sum and count,
returning 0.0 on an empty iterator.  `f64` arithmetic is modelled over `ℝ`
(the claims under verification concern the branch structure and the
divisor, not rounding). -/
noncomputable def mean (l : List ℝ) : ℝ :=
  let count : ℝ := l.length
  let sum : ℝ := l.foldl (fun a v => a + v) 0
  if count = 0 then 0 else sum / count

/-- Mirror of `fn stddev` in `main.rs`: accumulate squared deviations from
`m`, return 0.0 when `count <= 1.0`, else `sqrt(acc / (count - 1))`. -/
noncomputable def stddev (l : List ℝ) (m : ℝ) : ℝ :=
  let count : ℝ := l.length
  let acc : ℝ := l.foldl (fun a v => a + (v - m) * (v - m)) 0
  if count ≤ 1 then 0 else Real.sqrt (acc / (count - 1))

/-! Helper lemmas shared by the `count_bits` claims. -/

/-- Counting a predicate over `0..7` in reversed bit order counts the same
positions. -/
theorem countP_range8_rev (p : Nat → Bool) :
    (List.range 8).countP (fun i => p (7 - i)) = (List.range 8).countP p := by
  have hmap : (List.range 8).countP (fun i => p (7 - i))
      = ((List.range 8).map (fun i => 7 - i)).countP p := by
    rw [List.countP_map]; rfl
  have hperm : ((List.range 8).map (fun i => 7 - i)).Perm (List.range 8) := by
    decide
  rw [hmap, hperm.countP_eq]

/-- The MSB-first per-bit count of one byte is its population count. -/
theorem popCount8_eq_rev (b : Nat) :
    (List.range 8).countP (fun i => (b >>> (7 - i)) &&& 1 == 1) = popCount8 b :=
  countP_range8_rev (fun j => (b >>> j) &&& 1 == 1)

/-- Summing population counts of the first `full` bytes equals the per-bit
count over the first `8 * full` logical bits. -/
theorem sum_popCount8_take :
    ∀ (full : Nat) (L : List Nat),
    ((L.take full).map popCount8).sum
      = (List.range (8 * full)).countP (bitTestL L)
  | 0, _ => by simp
  | full + 1, L => by
    have h8 : 8 * (full + 1) = 8 + 8 * full := by ring
    rw [h8, List.range_add, List.countP_append, List.countP_map]
    have hchunk1 : (List.range 8).countP (bitTestL L)
        = popCount8 (L.getD 0 0) := by
      have hc : (List.range 8).countP (bitTestL L)
          = (List.range 8).countP
              (fun i => ((L.getD 0 0) >>> (7 - i)) &&& 1 == 1) := by
        refine List.countP_congr ?_
        intro i hi
        have hi8 : i < 8 := List.mem_range.mp hi
        have h1 : i / 8 = 0 := Nat.div_eq_of_lt hi8
        have h2 : i % 8 = i := Nat.mod_eq_of_lt hi8
        simp [bitTestL, h1, h2]
      rw [hc]; exact popCount8_eq_rev _
    have hchunk2 : (List.range (8 * full)).countP (bitTestL L ∘ (fun x => 8 + x))
        = (List.range (8 * full)).countP (bitTestL L.tail) := by
      refine List.countP_congr ?_
      intro i _
      have hdiv : (8 + i) / 8 = i / 8 + 1 := by omega
      have hmod : (8 + i) % 8 = i % 8 := by omega
      cases L with
      | nil => simp [bitTestL, hdiv, hmod]
      | cons b L2 => simp [bitTestL, hdiv, hmod]
    rw [hchunk1, hchunk2, ← sum_popCount8_take full L.tail]
    cases L with
    | nil => simp [popCount8]
    | cons b L2 => simp

/-- Under the buffer-length precondition, `count_bits` succeeds and its ones
tally is exactly the per-bit specification count. -/
theorem count_bits_eq (s : BitString) (h : (s.bits + 7) / 8 ≤ s.bytes.length) :
    s.count_bits = some ⟨s.bits - onesSpec s, onesSpec s⟩ := by
  obtain ⟨bits, L⟩ := s
  simp only at h ⊢
  have hbits : bits = 8 * (bits / 8) + bits % 8 := by omega
  have hsplit : onesSpec ⟨bits, L⟩
      = ((L.take (bits / 8)).map popCount8).sum
        + (List.range (bits % 8)).countP
            (fun i => bitTestL L (8 * (bits / 8) + i)) := by
    unfold onesSpec
    conv_lhs => rw [hbits]
    rw [List.range_add, List.countP_append, List.countP_map]
    rw [sum_popCount8_take]
    rfl
  by_cases hrem : bits % 8 > 0
  · have hlen : bits / 8 < L.length := by omega
    have hget : L.get? (bits / 8) = some (L.getD (bits / 8) 0) := by
      rw [List.get?_eq_getElem?, List.getElem?_eq_getElem hlen]
      rw [List.getD_eq_getElem L 0 hlen]
    have hpart2 : (List.range (bits % 8)).countP
          (fun i => bitTestL L (8 * (bits / 8) + i))
        = (List.range (bits % 8)).countP
            (fun i => ((L.getD (bits / 8) 0) >>> (7 - i)) &&& 1 == 1) := by
      refine List.countP_congr ?_
      intro i hi
      have hi8 : i < bits % 8 := List.mem_range.mp hi
      have hd : (8 * (bits / 8) + i) / 8 = bits / 8 := by omega
      have hm : (8 * (bits / 8) + i) % 8 = i := by omega
      simp [bitTestL, hd, hm]
    unfold BitString.count_bits
    simp only [hget, if_pos hrem]
    rw [hsplit, hpart2]
  · have hrem0 : bits % 8 = 0 := by omega
    unfold BitString.count_bits
    simp only [hrem0]
    simp only [gt_iff_lt, Nat.lt_irrefl, if_false]
    rw [hsplit, hrem0]
    simp

/-- The per-bit ones count never exceeds the logical bit count. -/
theorem onesSpec_le (s : BitString) : onesSpec s ≤ s.bits := by
  have h := List.countP_le_length (bitTestL s.bytes) (l := List.range s.bits)
  simpa [onesSpec] using h

/-- C4: for every Bit String whose byte buffer has length at least
`ceil(bits/8)`, `count_bits` returns a tally with `zeros + ones = bits`. -/
theorem count_bits_tally_sum (s : BitString)
    (h : (s.bits + 7) / 8 ≤ s.bytes.length) :
    ∃ t, s.count_bits = some t ∧ t.zeros + t.ones = s.bits := by
  refine ⟨_, count_bits_eq s h, ?_⟩
  exact Nat.sub_add_cancel (onesSpec_le s)

/-- Witness for C4 on a concrete two-byte Bit String. -/
theorem count_bits_tally_sum_witness :
    ∃ t, (BitString.mk 16 [171, 205]).count_bits = some t
      ∧ t.zeros + t.ones = 16 :=
  count_bits_tally_sum ⟨16, [171, 205]⟩ (by decide)

/-- C5: `count_bits` counts partial-byte bits most-significant-bit first —
its ones tally equals the per-bit count testing bit `i` as
`(bytes[i/8] >> (7 - i%8)) & 1`; in particular one byte `0b10110000` with
`bits = 3` yields `ones = 2`, `zeros = 1`. -/
theorem count_bits_msb_first :
    (∀ s : BitString, (s.bits + 7) / 8 ≤ s.bytes.length →
      ∃ t, s.count_bits = some t
        ∧ t.ones = (List.range s.bits).countP
            (fun i => ((s.bytes.getD (i / 8) 0) >>> (7 - i % 8)) &&& 1 == 1))
    ∧ (BitString.mk 3 [176]).count_bits = some ⟨1, 2⟩ := by
  constructor
  · intro s h
    exact ⟨_, count_bits_eq s h, rfl⟩
  · decide

/-- Witness for C5 at the spec's own edge-case input `0b10110000`,
`bits = 3`. -/
theorem count_bits_msb_first_witness :
    ∃ t, (BitString.mk 3 [176]).count_bits = some t
      ∧ t.ones = (List.range 3).countP
          (fun i => (([176] : List Nat).getD (i / 8) 0 >>> (7 - i % 8)) &&& 1
            == 1) :=
  count_bits_msb_first.1 ⟨3, [176]⟩ (by decide)

/-- C10: `count_bits` is total with `ones ≤ bits` (so the `u64` subtraction
`bits - ones` cannot underflow) whenever the buffer holds at least
`ceil(bits/8)` bytes; with `bits % 8 ≠ 0` and a shorter buffer, the index
into byte `bits / 8` is out of bounds and the call panics. -/
theorem count_bits_total_or_oob :
    (∀ s : BitString, (s.bits + 7) / 8 ≤ s.bytes.length →
      ∃ t, s.count_bits = some t ∧ t.ones ≤ s.bits)
    ∧ (∀ s : BitString, s.bits % 8 ≠ 0 → s.bytes.length < (s.bits + 7) / 8 →
      s.count_bits = none) := by
  constructor
  · intro s h
    exact ⟨_, count_bits_eq s h, onesSpec_le s⟩
  · intro s hrem hlen
    obtain ⟨bits, L⟩ := s
    simp only at hrem hlen ⊢
    have hpos : bits % 8 > 0 := Nat.pos_of_ne_zero hrem
    have hshort : L.length ≤ bits / 8 := by omega
    have hget : L.get? (bits / 8) = none := by
      rw [List.get?_eq_getElem?]
      exact List.getElem?_eq_none hshort
    unfold BitString.count_bits
    simp only [hget, if_pos hpos]

/-- Witness for C10: a 9-bit string with 2 bytes succeeds; the same bit
count with only 1 byte hits the out-of-bounds index. -/
theorem count_bits_total_or_oob_witness :
    (∃ t, (BitString.mk 9 [255, 255]).count_bits = some t ∧ t.ones ≤ 9)
    ∧ (BitString.mk 9 [255]).count_bits = none :=
  ⟨count_bits_total_or_oob.1 ⟨9, [255, 255]⟩ (by decide),
   count_bits_total_or_oob.2 ⟨9, [255]⟩ (by decide) (by decide)⟩

/-- A `generate_bits` call on the counter-mode generator consumes at least
one block when it produces any output. -/
theorem aesBlocksUsed_pos (bits : Nat) (h : 0 < bits) : 0 < aesBlocksUsed bits := by
  unfold aesBlocksUsed AES_BLOCK_BYTES
  omega

/-- C1: each counter-mode `generate_bits(bits)` call advances the 128-bit
counter by exactly `ceil(ceil(bits/8)/16)` blocks modulo `2^128`, and for two
successive calls without a reseed the counter-block range consumed by the
second call is disjoint from the first's whenever the combined advance does
not wrap around `2^128`. -/
theorem aes_ctr_advance_disjoint (P : Prims) (st : AesCtrDrbg) (b1 b2 : Nat)
    (hno : st.counter + aesBlocksUsed b1 + aesBlocksUsed b2 ≤ 2 ^ 128) :
    (st.generate_bits P b1).2.counter
      = (st.counter + aesBlocksUsed b1) % 2 ^ 128
    ∧ Disjoint (consumedBlocks st.counter (aesBlocksUsed b1))
        (consumedBlocks (st.generate_bits P b1).2.counter (aesBlocksUsed b2)) := by
  refine ⟨rfl, ?_⟩
  have hc2 : (st.generate_bits P b1).2.counter
      = (st.counter + aesBlocksUsed b1) % 2 ^ 128 := rfl
  rw [hc2]
  set M := 2 ^ 128 with hM
  set c := st.counter with hc
  set u1 := aesBlocksUsed b1 with hu1
  set u2 := aesBlocksUsed b2 with hu2
  rcases Nat.eq_zero_or_pos u2 with h0 | hpos
  · simp [consumedBlocks, h0]
  · have hm1 : (c + u1) % M = c + u1 := Nat.mod_eq_of_lt (by omega)
    rw [Finset.disjoint_left]
    intro x hx1 hx2
    simp only [consumedBlocks, Finset.mem_image, Finset.mem_range, ← hM] at hx1 hx2
    obtain ⟨i, hi, hxi⟩ := hx1
    obtain ⟨j, hj, hxj⟩ := hx2
    rw [hm1] at hxj
    have hmi : (c + i) % M = c + i := Nat.mod_eq_of_lt (by omega)
    have hmj : (c + u1 + j) % M = c + u1 + j := Nat.mod_eq_of_lt (by omega)
    rw [hmi] at hxi
    rw [hmj] at hxj
    omega

/-- Witness for C1 at counter 0 with two 8-bit calls (one block each). -/
theorem aes_ctr_advance_disjoint_witness :
    ((AesCtrDrbg.mk [] 0).generate_bits trivPrims 8).2.counter
      = (0 + aesBlocksUsed 8) % 2 ^ 128
    ∧ Disjoint (consumedBlocks 0 (aesBlocksUsed 8))
        (consumedBlocks ((AesCtrDrbg.mk [] 0).generate_bits trivPrims 8).2.counter
          (aesBlocksUsed 8)) :=
  aes_ctr_advance_disjoint trivPrims ⟨[], 0⟩ 8 8 (by decide)

/-- C2: on all three generators, `generate_bits(bits)` returns a Bit String
whose byte buffer has length exactly `ceil(bits/8)` and whose `bits` field is
the requested `bits`. -/
theorem generate_bits_length (P : Prims) (c : ChaCha20Drbg) (a : AesCtrDrbg)
    (x : Blake3XofDrbg) (bits : Nat) :
    ((c.generate_bits bits).1.bytes.length = (bits + 7) / 8
      ∧ (c.generate_bits bits).1.bits = bits)
    ∧ ((a.generate_bits P bits).1.bytes.length = (bits + 7) / 8
      ∧ (a.generate_bits P bits).1.bits = bits)
    ∧ ((x.generate_bits P bits).1.bytes.length = (bits + 7) / 8
      ∧ (x.generate_bits P bits).1.bits = bits) := by
  refine ⟨⟨?_, rfl⟩, ⟨?_, rfl⟩, ⟨?_, rfl⟩⟩ <;>
    simp [ChaCha20Drbg.generate_bits, AesCtrDrbg.generate_bits,
      Blake3XofDrbg.generate_bits]

/-- C3: two instances of each generator variant constructed from the same
seed, driven through the same sequence of `generate_bits` lengths, produce
byte-identical output buffers at every call. -/
theorem determinism_two_run (P : Prims) (seed : List Nat) (lens : List Nat)
    (c1 c2 : ChaCha20Drbg) (a1 a2 : AesCtrDrbg) (x1 x2 : Blake3XofDrbg)
    (hc1 : c1 = ChaCha20Drbg.new P seed) (hc2 : c2 = ChaCha20Drbg.new P seed)
    (ha1 : a1 = AesCtrDrbg.new P seed) (ha2 : a2 = AesCtrDrbg.new P seed)
    (hx1 : x1 = Blake3XofDrbg.new P seed) (hx2 : x2 = Blake3XofDrbg.new P seed) :
    (c1.generateAll lens).map BitString.bytes
      = (c2.generateAll lens).map BitString.bytes
    ∧ (a1.generateAll P lens).map BitString.bytes
      = (a2.generateAll P lens).map BitString.bytes
    ∧ (x1.generateAll P lens).map BitString.bytes
      = (x2.generateAll P lens).map BitString.bytes := by
  subst hc1 hc2 ha1 ha2 hx1 hx2
  exact ⟨rfl, rfl, rfl⟩

/-- Witness for C3: two freshly constructed instances of each variant on a
concrete seed and a concrete call sequence. -/
theorem determinism_two_run_witness :
    ((ChaCha20Drbg.new trivPrims [1, 2]).generateAll [8, 3]).map BitString.bytes
      = ((ChaCha20Drbg.new trivPrims [1, 2]).generateAll [8, 3]).map
          BitString.bytes
    ∧ ((AesCtrDrbg.new trivPrims [1, 2]).generateAll trivPrims [8, 3]).map
          BitString.bytes
      = ((AesCtrDrbg.new trivPrims [1, 2]).generateAll trivPrims [8, 3]).map
          BitString.bytes
    ∧ ((Blake3XofDrbg.new trivPrims [1, 2]).generateAll trivPrims [8, 3]).map
          BitString.bytes
      = ((Blake3XofDrbg.new trivPrims [1, 2]).generateAll trivPrims [8, 3]).map
          BitString.bytes :=
  determinism_two_run trivPrims [1, 2] [8, 3] _ _ _ _ _ _
    rfl rfl rfl rfl rfl rfl

/-- C6: on each generator, `reseed(seed)` from any state yields exactly the
state a fresh construction from the same seed yields — all key material is
recomputed under the same domain label, nothing carries over, and the
keyed-XOF call counter is reset to 0. -/
theorem reseed_eq_new (P : Prims) (c : ChaCha20Drbg) (a : AesCtrDrbg)
    (x : Blake3XofDrbg) (seed : List Nat) :
    ChaCha20Drbg.reseed P c seed = ChaCha20Drbg.new P seed
    ∧ AesCtrDrbg.reseed P a seed = AesCtrDrbg.new P seed
    ∧ Blake3XofDrbg.reseed P x seed = Blake3XofDrbg.new P seed
    ∧ (Blake3XofDrbg.reseed P x seed).counter = 0 :=
  ⟨rfl, rfl, rfl, rfl⟩

/-- C7: the keyed-XOF generator draws its `ceil(bits/8)` output bytes from
the keyed XOF stream over the big-endian 8-byte encoding of the current call
counter, and increments the counter by exactly 1 modulo `2^64` — also when
`bits = 0`. -/
theorem blake3_generate_spec (P : Prims) (st : Blake3XofDrbg) (bits : Nat) :
    (st.generate_bits P bits).1.bytes
      = (List.range ((bits + 7) / 8)).map
          (P.keyedXof st.key (be_bytes64 st.counter))
    ∧ (st.generate_bits P bits).1.bytes.length = (bits + 7) / 8
    ∧ (st.generate_bits P bits).2.counter = (st.counter + 1) % 2 ^ 64
    ∧ (st.generate_bits P bits).2.key = st.key
    ∧ (st.generate_bits P 0).2.counter = (st.counter + 1) % 2 ^ 64 := by
  refine ⟨rfl, ?_, rfl, rfl, rfl⟩
  simp [Blake3XofDrbg.generate_bits]

/-- C9: every counter-mode `generate_bits` call leaves the key unchanged and
advances the counter by `blocks_used` modulo `2^128`; absent wraparound the
counter never decreases, and strictly increases whenever `bits > 0`. -/
theorem aes_generate_frame (P : Prims) (st : AesCtrDrbg) (bits : Nat) :
    (st.generate_bits P bits).2.key = st.key
    ∧ (st.generate_bits P bits).2.counter
        = (st.counter + aesBlocksUsed bits) % 2 ^ 128
    ∧ (st.counter + aesBlocksUsed bits < 2 ^ 128 →
        st.counter ≤ (st.generate_bits P bits).2.counter)
    ∧ (0 < bits → st.counter + aesBlocksUsed bits < 2 ^ 128 →
        st.counter < (st.generate_bits P bits).2.counter) := by
  refine ⟨rfl, rfl, ?_, ?_⟩
  · intro h
    have hc : (st.generate_bits P bits).2.counter
        = (st.counter + aesBlocksUsed bits) % 2 ^ 128 := rfl
    rw [hc, Nat.mod_eq_of_lt h]
    omega
  · intro hb h
    have hc : (st.generate_bits P bits).2.counter
        = (st.counter + aesBlocksUsed bits) % 2 ^ 128 := rfl
    have hpos := aesBlocksUsed_pos bits hb
    rw [hc, Nat.mod_eq_of_lt h]
    omega

/-- Witness for C9 at counter 5 with an 8-bit call. -/
theorem aes_generate_frame_witness :
    ((AesCtrDrbg.mk [7] 5).generate_bits trivPrims 8).2.key = [7]
    ∧ ((AesCtrDrbg.mk [7] 5).generate_bits trivPrims 8).2.counter
        = (5 + aesBlocksUsed 8) % 2 ^ 128
    ∧ 5 ≤ ((AesCtrDrbg.mk [7] 5).generate_bits trivPrims 8).2.counter
    ∧ 5 < ((AesCtrDrbg.mk [7] 5).generate_bits trivPrims 8).2.counter := by
  have h := aes_generate_frame trivPrims ⟨[7], 5⟩ 8
  exact ⟨h.1, h.2.1, h.2.2.1 (by decide), h.2.2.2 (by decide) (by decide)⟩

/-- C8: the aggregator's mean over zero samples is 0.0 rather than a
failure; its sample standard deviation is 0.0 whenever the sample count is
at most 1, and for two or more samples it divides the squared-deviation sum
by `count - 1` (Bessel correction) under the square root. -/
theorem aggregator_empty_and_bessel :
    mean ([] : List ℝ) = 0
    ∧ (∀ (l : List ℝ) (m : ℝ), l.length ≤ 1 → stddev l m = 0)
    ∧ (∀ (l : List ℝ) (m : ℝ), 2 ≤ l.length →
        stddev l m
          = Real.sqrt ((l.map (fun v => (v - m) * (v - m))).sum
              / ((l.length : ℝ) - 1))) := by
  refine ⟨?_, ?_, ?_⟩
  · simp [mean]
  · intro l m h
    have hle : ((l.length : ℝ)) ≤ 1 := by exact_mod_cast h
    unfold stddev
    simp only [if_pos hle]
  · intro l m h
    have hgt : ¬ ((l.length : ℝ) ≤ 1) := by
      have h2 : (2 : ℝ) ≤ (l.length : ℝ) := by exact_mod_cast h
      linarith
    unfold stddev
    simp only [if_neg hgt]
    rw [List.sum_eq_foldl, List.foldl_map]

/-- Witness for C8: one sample gives 0.0; the spec's three-sample group
divides its squared-deviation sum by 2. -/
theorem aggregator_empty_and_bessel_witness :
    stddev [(5 : ℝ)] 3 = 0
    ∧ stddev [(1 : ℝ), 2, 3] 2
        = Real.sqrt ((([(1 : ℝ), 2, 3]).map (fun v => (v - 2) * (v - 2))).sum
            / ((([(1 : ℝ), 2, 3] : List ℝ).length : ℝ) - 1)) :=
  ⟨aggregator_empty_and_bessel.2.1 [5] 3 (by simp),
   aggregator_empty_and_bessel.2.2 [1, 2, 3] 2 (by simp)⟩

end DRBG
